import Mathlib

/-
  Verification of the streaming file I/O module (lib/io.js) of the
  Adblock Plus repository.

  Modelling conventions:
  * JavaScript strings are modelled as lists of characters (List Char),
    so that concatenation and scanning are structurally recursive.
  * The asynchronous generator bodies are single-threaded straight-line
    code with suspension points; they are modelled as pure functions
    that return the observable outcome: the event trace (consumer calls,
    instrumentation hook calls, completion-callback calls) and the final
    state of the two file-system cells the writer touches.
  * Fallible file primitives are modelled by an oracle that says, for
    each primitive invocation, whether it succeeds or delivers an error.
-/

namespace AdblockIo

/-- A JavaScript string, modelled as its sequence of characters. -/
abbrev Str := List Char

/-- A character terminating a line: carriage return or line feed.
The scanner regexp of lib/io.js matches maximal runs of characters
that are not carriage return and not line feed. -/
def isBreak (c : Char) : Bool := c = '\r' || c = '\n'

/-- The chunk threshold from lib/io.js: BUFFER_SIZE = 0x8000 (32 kB),
measured in source characters. -/
def BUFFER_SIZE : Nat := 0x8000

/-- The platform line break from the cached lineBreak getter of lib/io.js:
carriage return + line feed on Windows (appinfo.OS equal to WINNT),
line feed otherwise. -/
def lineBreak (isWindows : Bool) : Str :=
  if isWindows then ['\r', '\n'] else ['\n']

/-- Worker of the line scanner: walks the text, accumulating the current
run of non-break characters (in reverse) in acc; a break character or the
end of the text emits the run when it is non-empty. This is the behaviour
of repeatedly calling exec of the global regexp matching one-or-more
non-break characters, as the lines generator of lib/io.js does. -/
def linesAux : List Char → List Char → List (List Char)
  | [], acc => if acc.isEmpty then [] else [acc.reverse]
  | c :: rest, acc =>
    if isBreak c then
      if acc.isEmpty then linesAux rest [] else acc.reverse :: linesAux rest []
    else
      linesAux rest (c :: acc)

/-- The lines generator of lib/io.js: the sequence of maximal non-empty
runs of non-break characters of the text, in source order. -/
def lines (text : Str) : List Str := linesAux text []

/-- One encoded chunk as built by writeChunk of lib/io.js: the buffered
lines joined with the line break, terminated by one trailing line break.
The UTF-8 encoding step (TextEncoder) is modelled as the identity on the
character sequence. -/
def writeChunkStr (buf : List Str) (lb : Str) : Str :=
  List.intercalate lb buf ++ lb

/-- The writer's in-memory state inside writeToFile: the pending line
buffer buf, the accumulated character-length counter bufLen, and the
chunks already written to the temp file, in order. -/
structure WState where
  buf : List Str
  bufLen : Nat
  chunks : List Str
deriving DecidableEq

/-- One iteration of the writer loop of writeToFile: push the line onto
the buffer, add its length to the counter, and flush one chunk when the
counter reaches or exceeds BUFFER_SIZE (writeChunk resets the buffer to
empty and the counter to 0). -/
def appendLine (lb : Str) (s : WState) (line : Str) : WState :=
  let buf := s.buf ++ [line]
  let bufLen := s.bufLen + line.length
  if bufLen ≥ BUFFER_SIZE then
    { buf := [], bufLen := 0, chunks := s.chunks ++ [writeChunkStr buf lb] }
  else
    { buf := buf, bufLen := bufLen, chunks := s.chunks }

/-- The writer loop of writeToFile over the whole input sequence. -/
def writeLoop (lb : Str) (s : WState) : List Str → WState
  | [] => s
  | line :: rest => writeLoop lb (appendLine lb s line) rest

/-- Initial writer state: empty buffer, zero counter, nothing written. -/
def initWState : WState := { buf := [], bufLen := 0, chunks := [] }

/-- The chunks writeToFile sends to the temp file for the given data:
the in-loop chunks followed by the final flush performed when the
accumulated length is non-zero (the check `if (bufLen)`). -/
def writtenChunks (lb : Str) (data : List Str) : List Str :=
  if (writeLoop lb initWState data).bufLen ≠ 0 then
    (writeLoop lb initWState data).chunks
      ++ [writeChunkStr (writeLoop lb initWState data).buf lb]
  else
    (writeLoop lb initWState data).chunks

/-- The full content of the temp file after an error-free writeToFile. -/
def writtenContent (lb : Str) (data : List Str) : Str :=
  (writtenChunks lb data).flatten

/-- Total character length of a sequence of lines. -/
def totalLen (data : List Str) : Nat := (data.map List.length).sum

/-- The two file-system cells a writeToFile invocation can touch: the
content at the target path (none when the file is absent) and the
content at the temp path (target path + ".tmp"). No other path is
named by the writer. -/
structure FS where
  target : Option Str
  temp : Option Str
deriving DecidableEq

/-- The primitive-calling steps of writeToFile, in program order. -/
inductive WStep where
  | openStep
  | writeStep (i : Nat)
  | flushStep
  | closeStep
  | moveStep
deriving DecidableEq

/-- Failure oracle for the file primitives used by writeToFile: for each
step, none means the step succeeds and some e means it fails with error
e. hasFlush models whether the flush capability is exposed (prior to
Gecko 27 it is not; its absence skips the flush step without error). -/
structure WriteOracle (E : Type) where
  openErr : Option E
  writeErr : Nat → Option E
  hasFlush : Bool
  flushErr : Option E
  closeErr : Option E
  moveErr : Option E

/-- The chunk-write phase against the primitives: writes the chunks in
order to the temp content, stopping at the first failing write. Returns
the temp content reached, the write steps executed, and the first write
error, if any. -/
def runWriteChunks (o : WriteOracle E) : Nat → Str → List Str → Str × List WStep × Option E
  | _, t, [] => (t, [], none)
  | i, t, c :: rest =>
    match o.writeErr i with
    | some e => (t, [.writeStep i], some e)
    | none =>
      let r := runWriteChunks o (i + 1) (t ++ c) rest
      (r.1, .writeStep i :: r.2.1, r.2.2)

/-- Observable outcome of one writeToFile invocation: the final state of
the two file-system cells, the primitive steps executed in order, and
the completion-callback invocations in order. -/
structure WriteRun (E : Type) where
  fs : FS
  trace : List WStep
  callbacks : List (Option E)
deriving DecidableEq

/-- writeToFile of lib/io.js against the failure oracle, starting from
file-system state fs: open the temp file with truncation, write the
chunks produced by the buffer loop, flush when the capability is
exposed, close, and atomically move the temp file onto the target.
The first error rejects the task promise, aborting all later steps,
and then(callback.bind(null, null), callback) invokes the callback
exactly once: with null on success, with the error otherwise. -/
def runWrite (lb : Str) (o : WriteOracle E) (fs : FS) (data : List Str) : WriteRun E :=
  match o.openErr with
  | some e => { fs := fs, trace := [.openStep], callbacks := [some e] }
  | none =>
    let w := runWriteChunks o 0 [] (writtenChunks lb data)
    let fs2 : FS := { fs with temp := some w.1 }
    match w.2.2 with
    | some e => { fs := fs2, trace := .openStep :: w.2.1, callbacks := [some e] }
    | none =>
      let flushTr : List WStep := if o.hasFlush then [.flushStep] else []
      match (if o.hasFlush then o.flushErr else none) with
      | some e =>
        { fs := fs2, trace := .openStep :: (w.2.1 ++ flushTr), callbacks := [some e] }
      | none =>
        match o.closeErr with
        | some e =>
          { fs := fs2, trace := .openStep :: (w.2.1 ++ flushTr ++ [.closeStep]),
            callbacks := [some e] }
        | none =>
          match o.moveErr with
          | some e =>
            { fs := fs2,
              trace := .openStep :: (w.2.1 ++ flushTr ++ [.closeStep, .moveStep]),
              callbacks := [some e] }
          | none =>
            { fs := { target := some w.1, temp := none },
              trace := .openStep :: (w.2.1 ++ flushTr ++ [.closeStep, .moveStep]),
              callbacks := [none] }

/-- The first write error among the chunk indices i, i+1, ..., i+n-1. -/
def firstChunkErr (o : WriteOracle E) : Nat → Nat → Option E
  | _, 0 => none
  | i, n + 1 =>
    match o.writeErr i with
    | some e => some e
    | none => firstChunkErr o (i + 1) n

/-- The first error a writeToFile invocation encounters, in step order:
open, then the n chunk writes, then flush (when exposed), close, move. -/
def firstWriteErr (o : WriteOracle E) (n : Nat) : Option E :=
  match o.openErr with
  | some e => some e
  | none =>
    match firstChunkErr o 0 n with
    | some e => some e
    | none =>
      match (if o.hasFlush then o.flushErr else none) with
      | some e => some e
      | none =>
        match o.closeErr with
        | some e => some e
        | none => o.moveErr

/-- The full step sequence of an error-free writeToFile with n chunks. -/
def successTrace (hasFlush : Bool) (n : Nat) : List WStep :=
  .openStep :: ((List.range n).map WStep.writeStep
    ++ (if hasFlush then [.flushStep] else []) ++ [.closeStep, .moveStep])

/-- Events observable during readFromFile: the TimeLine instrumentation
hook calls, the consumer process calls, and the completion callback. -/
inductive REvent (E : Type) where
  | asyncStart (id : Str)
  | asyncEnd (id : Str)
  | asyncDone (id : Str)
  | processCall (arg : Option Str)
  | callbackCall (err : Option E)
deriving DecidableEq

/-- The line-delivery loop of readFromFile: listener.process is called
on each line in order; an exception thrown by the consumer propagates
to the surrounding try and stops delivery. After the last line, process
is called once more with null (the end-of-stream sentinel), which may
itself throw. Returns the process-call events and the exception, if
any. -/
def deliverLines (proc : Option Str → Except E Unit) : List Str → List (REvent E) × Option E
  | [] =>
    match proc none with
    | .ok _ => ([.processCall none], none)
    | .error e => ([.processCall none], some e)
  | l :: rest =>
    match proc (some l) with
    | .ok _ =>
      let r := deliverLines proc rest
      (.processCall (some l) :: r.1, r.2)
    | .error e => ([.processCall (some l)], some e)

/-- readFromFile of lib/io.js, as the event trace it produces. The
outcome of the OS.File.read primitive is an oracle argument: the decoded
text on success, the exception otherwise. The optional timeLineID drives
the TimeLine hooks: asyncStart before the read, asyncEnd after the read
succeeds, asyncDone unconditionally before the callback, which receives
null on success and the caught exception otherwise. -/
def readFromFile (timeLineID : Option Str) (readResult : Except E Str)
    (proc : Option Str → Except E Unit) : List (REvent E) :=
  let startEvs : List (REvent E) :=
    match timeLineID with
    | some id => [.asyncStart id]
    | none => []
  let doneEvs : List (REvent E) :=
    match timeLineID with
    | some id => [.asyncDone id]
    | none => []
  match readResult with
  | .error e => startEvs ++ (doneEvs ++ [.callbackCall (some e)])
  | .ok text =>
    let endEvs : List (REvent E) :=
      match timeLineID with
      | some id => [.asyncEnd id]
      | none => []
    let d := deliverLines proc (lines text)
    startEvs ++ (endEvs ++ (d.1 ++ (doneEvs ++ [.callbackCall d.2])))

/-- The sequence of arguments passed to listener.process, in order. -/
def processedArgs (evs : List (REvent E)) : List (Option Str) :=
  evs.filterMap fun ev =>
    match ev with
    | .processCall a => some a
    | _ => none

/-- Recognizes a completion-callback event. -/
def isCallbackCall : REvent E → Bool
  | .callbackCall _ => true
  | _ => false

/-- Recognizes a consumer process-call event. -/
def isProcessCall : REvent E → Bool
  | .processCall _ => true
  | _ => false

/-- Recognizes the asyncDone hook event for the given span id. -/
def isAsyncDoneFor (id : Str) : REvent E → Bool
  | .asyncDone j => j = id
  | _ => false

/-- Outcome of the underlying OS.File.stat primitive: success with the
isDir flag and the last-modification time, or failure with an error
value carrying the becauseNoSuchFile flag. -/
inductive StatPrim (E : Type) where
  | ok (isDir : Bool) (lastModificationDate : Int)
  | err (e : E) (becauseNoSuchFile : Bool)
deriving DecidableEq

/-- The Stat record statFile passes to its callback. The source field
name for the first component is exists, which is not a legal Lean
identifier, hence exists_. -/
structure Stat where
  exists_ : Bool
  isDirectory : Bool
  isFile : Bool
  lastModified : Int
deriving DecidableEq

/-- statFile of lib/io.js: the list of callback invocations (error
argument, Stat argument) produced for a given primitive outcome. A
not-found failure is translated into a success callback carrying the
all-false/zero Stat; any other failure is passed through as an error. -/
def statFile (prim : StatPrim E) : List (Option E × Option Stat) :=
  match prim with
  | .ok isDir t =>
    [(none, some { exists_ := true, isDirectory := isDir, isFile := !isDir,
                   lastModified := t })]
  | .err e noSuchFile =>
    if noSuchFile then
      [(none, some { exists_ := false, isDirectory := false, isFile := false,
                     lastModified := 0 })]
    else
      [(some e, none)]

/-- The oracle under which every file primitive succeeds and the flush
capability is exposed. -/
def okOracle (E : Type) : WriteOracle E :=
  { openErr := none, writeErr := fun _ => none, hasFlush := true,
    flushErr := none, closeErr := none, moveErr := none }

/-- The oracle outcome of one step of writeToFile. -/
def stepErr (o : WriteOracle E) : WStep → Option E
  | .openStep => o.openErr
  | .writeStep i => o.writeErr i
  | .flushStep => o.flushErr
  | .closeStep => o.closeErr
  | .moveStep => o.moveErr

theorem linesAux_eq_splitOnP_go (text acc : List Char) :
    linesAux text acc
      = (List.splitOnP.go isBreak text acc).filter (fun l => !l.isEmpty) := by
  induction text generalizing acc with
  | nil =>
    simp only [linesAux, List.splitOnP.go, List.filter_cons, List.filter_nil]
    rcases acc with _ | ⟨c, acc⟩ <;> simp
  | cons c rest ih =>
    simp only [linesAux, List.splitOnP.go]
    by_cases hc : isBreak c
    · simp only [hc, if_true, List.filter_cons]
      rcases acc with _ | ⟨a, acc⟩ <;> simp [ih]
    · simp only [hc, if_false, ih]
      simp [hc]

theorem lines_eq_filter_splitOnP (text : Str) :
    lines text = (text.splitOnP isBreak).filter (fun l => !l.isEmpty) := by
  simpa [lines, List.splitOnP] using linesAux_eq_splitOnP_go text []

theorem linesAux_tokens_valid (text : Str) :
    ∀ acc, (∀ c ∈ acc, isBreak c = false) →
      ∀ t ∈ linesAux text acc, t ≠ [] ∧ ∀ c ∈ t, isBreak c = false := by
  induction text with
  | nil =>
    intro acc hacc t ht
    simp only [linesAux] at ht
    rcases h : acc.isEmpty with _ | _
    · rw [h] at ht; simp at ht
      subst ht
      refine ⟨by simpa [List.isEmpty_eq_false] using h, ?_⟩
      intro c hc
      exact hacc c (by simpa using hc)
    · rw [h] at ht; simp at ht
  | cons c rest ih =>
    intro acc hacc t ht
    simp only [linesAux] at ht
    by_cases hc : isBreak c
    · rw [if_pos hc] at ht
      rcases h : acc.isEmpty with _ | _
      · rw [h] at ht
        simp only [Bool.false_eq_true, if_false, List.mem_cons] at ht
        rcases ht with ht | ht
        · subst ht
          refine ⟨by simpa [List.isEmpty_eq_false] using h, ?_⟩
          intro d hd
          exact hacc d (by simpa using hd)
        · exact ih [] (by simp) t ht
      · rw [h] at ht
        exact ih [] (by simp) t ht
    · rw [if_neg hc] at ht
      refine ih (c :: acc) ?_ t ht
      intro d hd
      rcases List.mem_cons.mp hd with h | h
      · subst h; simpa using hc
      · exact hacc d h

/-- C4: every token produced by the lines scanner is a non-empty string with
no carriage return and no line feed, the tokens are, in source order, the
maximal runs of non-break characters with the empty runs (blank lines)
dropped, and the empty input produces the empty sequence. -/
theorem lines_scanner_spec (text : Str) :
    lines ([] : Str) = []
      ∧ (∀ t ∈ lines text, t ≠ [] ∧ ∀ c ∈ t, isBreak c = false)
      ∧ lines text = (text.splitOnP isBreak).filter (fun l => !l.isEmpty) := by
  refine ⟨by simp [lines, linesAux], ?_, lines_eq_filter_splitOnP text⟩
  exact linesAux_tokens_valid text [] (by simp)

/-- Witness for C4 at the concrete input x LF LF y LF: the scanner yields
the two tokens x and y, each non-empty and break-free. -/
theorem lines_scanner_spec_witness :
    lines (['x', '\n', '\n', 'y', '\n'] : Str) = [['x'], ['y']]
      ∧ (∀ t ∈ lines (['x', '\n', '\n', 'y', '\n'] : Str),
          t ≠ [] ∧ ∀ c ∈ t, isBreak c = false) := by
  refine ⟨by decide, ?_⟩
  exact (lines_scanner_spec (['x', '\n', '\n', 'y', '\n'] : Str)).2.1

theorem writeLoop_groups (lb : Str) :
    ∀ (data : List Str) (s : WState) (groups : List (List Str)),
      s.chunks = groups.map (fun g => writeChunkStr g lb) →
      s.bufLen = totalLen s.buf →
      ∃ groups' : List (List Str),
        (writeLoop lb s data).chunks = groups'.map (fun g => writeChunkStr g lb)
          ∧ groups'.flatten ++ (writeLoop lb s data).buf = groups.flatten ++ s.buf ++ data
          ∧ (writeLoop lb s data).bufLen = totalLen (writeLoop lb s data).buf := by
  intro data
  induction data with
  | nil =>
    intro s groups hc hl
    exact ⟨groups, hc, by simp [writeLoop], by simpa [writeLoop] using hl⟩
  | cons line rest ih =>
    intro s groups hc hl
    simp only [writeLoop]
    by_cases hfl : s.bufLen + line.length ≥ BUFFER_SIZE
    · have happ : appendLine lb s line
          = { buf := [], bufLen := 0,
              chunks := s.chunks ++ [writeChunkStr (s.buf ++ [line]) lb] } := by
        simp [appendLine, hfl]
      obtain ⟨groups', h1, h2, h3⟩ :=
        ih (appendLine lb s line) (groups ++ [s.buf ++ [line]])
          (by rw [happ]; simp [hc]) (by rw [happ]; simp [totalLen])
      refine ⟨groups', h1, ?_, h3⟩
      rw [h2, happ]
      simp [List.append_assoc]
    · have happ : appendLine lb s line
          = { buf := s.buf ++ [line], bufLen := s.bufLen + line.length,
              chunks := s.chunks } := by
        simp [appendLine, hfl]
      obtain ⟨groups', h1, h2, h3⟩ :=
        ih (appendLine lb s line) groups
          (by rw [happ]; exact hc)
          (by rw [happ]; simp [totalLen, hl])
      refine ⟨groups', h1, ?_, h3⟩
      rw [h2, happ]
      simp [List.append_assoc]

theorem writeLoop_init_groups (lb : Str) (data : List Str) :
    ∃ groups' : List (List Str),
      (writeLoop lb initWState data).chunks = groups'.map (fun g => writeChunkStr g lb)
        ∧ groups'.flatten ++ (writeLoop lb initWState data).buf = data
        ∧ (writeLoop lb initWState data).bufLen
            = totalLen (writeLoop lb initWState data).buf := by
  obtain ⟨groups', h1, h2, h3⟩ :=
    writeLoop_groups lb data initWState [] (by simp [initWState])
      (by simp [initWState, totalLen])
  exact ⟨groups', h1, by simpa [initWState] using h2, h3⟩

theorem writeLoop_bufLen_zero_iff (lb : Str) (data : List Str)
    (h : ∀ l ∈ data, l ≠ []) :
    ((writeLoop lb initWState data).bufLen = 0
      ↔ (writeLoop lb initWState data).buf = []) := by
  obtain ⟨groups', _, h2, h3⟩ := writeLoop_init_groups lb data
  constructor
  · intro hz
    cases hb : (writeLoop lb initWState data).buf with
    | nil => rfl
    | cons x xs =>
      exfalso
      have hx : x ∈ data := by
        rw [← h2, hb]
        exact List.mem_append_right _ (List.mem_cons_self x xs)
      have hlen : totalLen (x :: xs) = 0 := by
        rw [← hb, ← h3, hz]
      have hxx : totalLen (x :: xs) = x.length + totalLen xs := by
        simp [totalLen]
      have : x.length = 0 := by
        rw [hxx] at hlen
        omega
      exact h x hx (List.length_eq_zero.mp this)
  · intro hb
    rw [h3, hb]
    simp [totalLen]

theorem writtenChunks_groups (lb : Str) (data : List Str)
    (h : ∀ l ∈ data, l ≠ []) :
    ∃ groups : List (List Str),
      writtenChunks lb data = groups.map (fun g => writeChunkStr g lb)
        ∧ groups.flatten = data := by
  obtain ⟨groups', h1, h2, _⟩ := writeLoop_init_groups lb data
  by_cases hz : (writeLoop lb initWState data).bufLen ≠ 0
  · refine ⟨groups' ++ [(writeLoop lb initWState data).buf], ?_, ?_⟩
    · rw [writtenChunks, if_pos hz, h1]
      simp
    · simpa using h2
  · push_neg at hz
    have hb : (writeLoop lb initWState data).buf = [] :=
      (writeLoop_bufLen_zero_iff lb data h).mp hz
    refine ⟨groups', ?_, ?_⟩
    · rw [writtenChunks]
      simp only [hz, ne_eq, not_true_eq_false, if_false]
      exact h1
    · rw [hb] at h2
      simpa using h2

theorem writeLoop_no_flush (lb : Str) :
    ∀ (data : List Str) (s : WState),
      s.bufLen + totalLen data < BUFFER_SIZE →
      writeLoop lb s data
        = { buf := s.buf ++ data, bufLen := s.bufLen + totalLen data,
            chunks := s.chunks } := by
  intro data
  induction data with
  | nil =>
    intro s h
    simp [writeLoop, totalLen]
  | cons line rest ih =>
    intro s h
    have htl : totalLen (line :: rest) = line.length + totalLen rest := by
      simp [totalLen]
    have hlt : ¬ (s.bufLen + line.length ≥ BUFFER_SIZE) := by
      rw [htl] at h; omega
    rw [writeLoop]
    have happ : appendLine lb s line
        = { buf := s.buf ++ [line], bufLen := s.bufLen + line.length,
            chunks := s.chunks } := by
      simp [appendLine, hlt]
    have h2 : s.bufLen + line.length + totalLen rest < BUFFER_SIZE := by
      rw [htl] at h; omega
    rw [happ, ih _ h2]
    simp only [WState.mk.injEq, htl]
    exact ⟨by simp, by omega, trivial⟩

/-- C6: appending a line increases the accumulated counter by the line's
length; the in-loop flush fires exactly when the counter reaches or
exceeds BUFFER_SIZE = 0x8000, and every flush resets the buffer to empty
and the counter to zero; consequently a single line whose length is at
least the threshold (such as length 40000) triggers exactly one chunk,
the in-loop one, and no final flush (the counter is zero after the
loop). -/
theorem chunking_invariant (lb : Str) :
    (∀ s line, appendLine lb s line =
        if s.bufLen + line.length ≥ BUFFER_SIZE then
          { buf := [], bufLen := 0,
            chunks := s.chunks ++ [writeChunkStr (s.buf ++ [line]) lb] }
        else
          { buf := s.buf ++ [line], bufLen := s.bufLen + line.length,
            chunks := s.chunks })
      ∧ (∀ line : Str, BUFFER_SIZE ≤ line.length →
          writtenChunks lb [line] = [writeChunkStr [line] lb]
            ∧ (writeLoop lb initWState [line]).bufLen = 0) := by
  constructor
  · intro s line
    rfl
  · intro line h
    have hstate : writeLoop lb initWState [line]
        = { buf := [], bufLen := 0, chunks := [writeChunkStr [line] lb] } := by
      simp [writeLoop, appendLine, initWState, h]
    refine ⟨?_, by rw [hstate]⟩
    unfold writtenChunks
    rw [hstate]
    norm_num

/-- Witness for C6: a single line of length 40000 produces exactly the
one in-loop chunk and leaves the counter at zero, so no final flush. -/
theorem chunking_invariant_witness :
    writtenChunks (lineBreak false) [List.replicate 40000 'a']
        = [writeChunkStr [List.replicate 40000 'a'] (lineBreak false)]
      ∧ (writeLoop (lineBreak false) initWState [List.replicate 40000 'a']).bufLen = 0 :=
  (chunking_invariant (lineBreak false)).2 (List.replicate 40000 'a')
    (by rw [List.length_replicate]; norm_num [BUFFER_SIZE])

/-- C3: after the input sequence is exhausted, a non-empty buffer causes
exactly one final flush (one extra chunk holding precisely the buffered
lines), an empty buffer causes none, and in consequence the chunks
reaching the temp file partition the appended lines exactly (every
appended line reaches the temp file). Lines are non-empty strings as
produced by the scanner, so that a non-empty buffer is the same as a
non-zero accumulated length, the check the code performs. -/
theorem writer_final_flush (lb : Str) (data : List Str)
    (h : ∀ l ∈ data, l ≠ []) :
    ((writeLoop lb initWState data).buf ≠ [] →
        writtenChunks lb data
          = (writeLoop lb initWState data).chunks
              ++ [writeChunkStr (writeLoop lb initWState data).buf lb])
      ∧ ((writeLoop lb initWState data).buf = [] →
          writtenChunks lb data = (writeLoop lb initWState data).chunks)
      ∧ ∃ groups : List (List Str),
          writtenChunks lb data = groups.map (fun g => writeChunkStr g lb)
            ∧ groups.flatten = data := by
  refine ⟨?_, ?_, writtenChunks_groups lb data h⟩
  · intro hb
    have hz : (writeLoop lb initWState data).bufLen ≠ 0 := by
      intro hzero
      exact hb ((writeLoop_bufLen_zero_iff lb data h).mp hzero)
    rw [writtenChunks, if_pos hz]
  · intro hb
    have hz : ¬ (writeLoop lb initWState data).bufLen ≠ 0 := by
      simp [(writeLoop_bufLen_zero_iff lb data h).mpr hb]
    rw [writtenChunks, if_neg hz]

/-- Witness for C3: writing the single line a leaves the buffer holding
that line after the loop, and the final flush emits it as one chunk. -/
theorem writer_final_flush_witness :
    writtenChunks (lineBreak false) [['a']] = [['a', '\n']]
      ∧ ((writeLoop (lineBreak false) initWState [['a']]).buf ≠ [] →
          writtenChunks (lineBreak false) [['a']]
            = (writeLoop (lineBreak false) initWState [['a']]).chunks
                ++ [writeChunkStr (writeLoop (lineBreak false) initWState [['a']]).buf
                      (lineBreak false)]) := by
  refine ⟨by decide, ?_⟩
  exact (writer_final_flush (lineBreak false) [['a']] (by decide)).1

/-- C7: a non-empty input sequence of lines whose total character length
stays below the 32 KiB threshold is written in exactly one flush, and
the resulting file content is the lines joined with the platform line
break with one trailing line break; the empty input sequence writes no
chunk at all, and the all-success run still ends with a valid target
file holding the empty content. -/
theorem small_write_content (w : Bool) (data : List Str) (fs : FS)
    (hne : data ≠ []) (hlines : ∀ l ∈ data, l ≠ [])
    (hlen : totalLen data < BUFFER_SIZE) :
    writtenChunks (lineBreak w) data = [writeChunkStr data (lineBreak w)]
      ∧ writtenContent (lineBreak w) data
          = List.intercalate (lineBreak w) data ++ lineBreak w
      ∧ writtenChunks (lineBreak w) ([] : List Str) = []
      ∧ (runWrite (lineBreak w) (okOracle Unit) fs ([] : List Str)).fs
          = { target := some [], temp := none }
      ∧ (runWrite (lineBreak w) (okOracle Unit) fs ([] : List Str)).callbacks
          = [none] := by
  have hstate : writeLoop (lineBreak w) initWState data
      = { buf := data, bufLen := totalLen data, chunks := [] } := by
    have := writeLoop_no_flush (lineBreak w) data initWState (by simpa [initWState] using hlen)
    simpa [initWState] using this
  have htpos : totalLen data ≠ 0 := by
    rcases data with _ | ⟨x, xs⟩
    · exact absurd rfl hne
    · have hx : x ≠ [] := hlines x (List.mem_cons_self x xs)
      have : 0 < x.length := List.length_pos.mpr hx
      have hxx : totalLen (x :: xs) = x.length + totalLen xs := by
        simp [totalLen]
      omega
  have hchunks : writtenChunks (lineBreak w) data = [writeChunkStr data (lineBreak w)] := by
    unfold writtenChunks
    rw [hstate]
    simp [htpos]
  refine ⟨hchunks, ?_, rfl, rfl, rfl⟩
  rw [writtenContent, hchunks]
  simp [writeChunkStr]

/-- Witness for C7 at the input a, b, c on a non-Windows platform: one
chunk, with content a LF b LF c LF. -/
theorem small_write_content_witness :
    writtenContent (lineBreak false) [['a'], ['b'], ['c']]
        = ['a', '\n', 'b', '\n', 'c', '\n']
      ∧ writtenChunks (lineBreak false) [['a'], ['b'], ['c']]
          = [writeChunkStr [['a'], ['b'], ['c']] (lineBreak false)]
      ∧ (runWrite (lineBreak false) (okOracle Unit) ⟨none, none⟩ ([] : List Str)).fs
          = { target := some [], temp := none } := by
  have h := small_write_content false [['a'], ['b'], ['c']] ⟨none, none⟩
    (by decide) (by decide) (by decide)
  refine ⟨?_, h.1, h.2.2.2.1⟩
  rw [h.2.1]
  decide

theorem getLast?_cons_concat (a b : α) (l : List α) :
    (a :: (l ++ [b])).getLast? = some b := by
  rw [show a :: (l ++ [b]) = (a :: l) ++ [b] from rfl]
  exact List.getLast?_concat _

theorem runWriteChunks_spec (o : WriteOracle E) :
    ∀ (chunks : List Str) (i : Nat) (t : Str),
      (runWriteChunks o i t chunks).2.2 = firstChunkErr o i chunks.length
        ∧ (∃ rest, (List.range' i chunks.length).map WStep.writeStep
             = (runWriteChunks o i t chunks).2.1 ++ rest)
        ∧ (firstChunkErr o i chunks.length = none →
            (runWriteChunks o i t chunks).2.1
                = (List.range' i chunks.length).map WStep.writeStep
              ∧ (runWriteChunks o i t chunks).1 = t ++ chunks.flatten)
        ∧ (∀ e, firstChunkErr o i chunks.length = some e →
            ∃ j pre, (runWriteChunks o i t chunks).2.1 = pre ++ [.writeStep j]
              ∧ o.writeErr j = some e) := by
  intro chunks
  induction chunks with
  | nil =>
    intro i t
    refine ⟨rfl, ⟨[], by simp [runWriteChunks]⟩, ?_, ?_⟩
    · intro _
      exact ⟨by simp [runWriteChunks], by simp [runWriteChunks]⟩
    · intro e he
      simp [firstChunkErr] at he
  | cons c rest ih =>
    intro i t
    cases hw : o.writeErr i with
    | some e =>
      have hfc : firstChunkErr o i (c :: rest).length = some e := by
        simp [firstChunkErr, hw]
      have hrun : runWriteChunks o i t (c :: rest) = (t, [.writeStep i], some e) := by
        simp [runWriteChunks, hw]
      refine ⟨by rw [hrun, hfc], ?_, ?_, ?_⟩
      · refine ⟨(List.range' (i + 1) rest.length).map WStep.writeStep, ?_⟩
        rw [hrun]
        simp [List.range'_succ]
      · intro hnone
        rw [hfc] at hnone
        cases hnone
      · intro e' he'
        rw [hfc] at he'
        refine ⟨i, [], by rw [hrun]; rfl, ?_⟩
        rw [hw]
        exact he'
    | none =>
      obtain ⟨ih1, ⟨rst, ihpre⟩, ih3, ih4⟩ := ih (i + 1) (t ++ c)
      have hfc : firstChunkErr o i (c :: rest).length
          = firstChunkErr o (i + 1) rest.length := by
        simp [firstChunkErr, hw]
      have hrun : runWriteChunks o i t (c :: rest)
          = ((runWriteChunks o (i + 1) (t ++ c) rest).1,
             .writeStep i :: (runWriteChunks o (i + 1) (t ++ c) rest).2.1,
             (runWriteChunks o (i + 1) (t ++ c) rest).2.2) := by
        simp [runWriteChunks, hw]
      refine ⟨by rw [hrun, hfc]; exact ih1, ?_, ?_, ?_⟩
      · refine ⟨rst, ?_⟩
        rw [hrun]
        simp only [List.length_cons, List.range'_succ, List.map_cons, List.cons_append]
        rw [ihpre]
      · intro hnone
        rw [hfc] at hnone
        obtain ⟨htr, hcont⟩ := ih3 hnone
        rw [hrun]
        refine ⟨?_, ?_⟩
        · simp only [List.length_cons, List.range'_succ, List.map_cons]
          rw [htr]
        · rw [hcont]
          simp
      · intro e he
        rw [hfc] at he
        obtain ⟨j, pre, hsplit, hje⟩ := ih4 e he
        refine ⟨j, .writeStep i :: pre, ?_, hje⟩
        rw [hrun, hsplit]
        rfl

/-- C2: the completion callback of writeToFile fires exactly once, with
the first error encountered in step order (open, the chunk writes,
flush, close, move) or with null when every step succeeds; the executed
steps form a prefix of the full step sequence, all of it exactly when no
step fails, and on an error the last executed step is the failing one
(everything after it is skipped); on any error the target path's prior
content or absence is unchanged (only the temp cell differs), and on
success the target holds the written content and the temp file is gone. -/
theorem write_error_propagation (lb : Str) (o : WriteOracle E) (fs : FS) (data : List Str) :
    (runWrite lb o fs data).callbacks
        = [firstWriteErr o (writtenChunks lb data).length]
      ∧ (∀ e, firstWriteErr o (writtenChunks lb data).length = some e →
          (runWrite lb o fs data).fs.target = fs.target)
      ∧ (∃ rest, successTrace o.hasFlush (writtenChunks lb data).length
            = (runWrite lb o fs data).trace ++ rest)
      ∧ (firstWriteErr o (writtenChunks lb data).length = none →
          (runWrite lb o fs data).trace
            = successTrace o.hasFlush (writtenChunks lb data).length)
      ∧ (∀ e, firstWriteErr o (writtenChunks lb data).length = some e →
          ∃ st, (runWrite lb o fs data).trace.getLast? = some st
            ∧ stepErr o st = some e)
      ∧ (firstWriteErr o (writtenChunks lb data).length = none →
          (runWrite lb o fs data).fs
            = { target := some (writtenContent lb data), temp := none }) := by
  cases ho : o.openErr with
  | some e =>
    have hr : runWrite lb o fs data
        = { fs := fs, trace := [.openStep], callbacks := [some e] } := by
      simp [runWrite, ho]
    have hf : firstWriteErr o (writtenChunks lb data).length = some e := by
      simp [firstWriteErr, ho]
    refine ⟨by rw [hr, hf], by intro _ _; rw [hr], ?_, by simp [hf], ?_, by simp [hf]⟩
    · exact ⟨(List.range (writtenChunks lb data).length).map WStep.writeStep
          ++ ((if o.hasFlush then [.flushStep] else []) ++ [.closeStep, .moveStep]),
        by rw [hr]; simp [successTrace]⟩
    · intro e' he'
      rw [hf] at he'
      cases he'
      exact ⟨.openStep, by rw [hr]; simp, by simp [stepErr, ho]⟩
  | none =>
    obtain ⟨h1, ⟨rst, hpre⟩, h3, h4⟩ :=
      runWriteChunks_spec o (writtenChunks lb data) 0 []
    cases hw : (runWriteChunks o 0 [] (writtenChunks lb data)).2.2 with
    | some e =>
      have hfc : firstChunkErr o 0 (writtenChunks lb data).length = some e := by
        rw [← h1, hw]
      have hf : firstWriteErr o (writtenChunks lb data).length = some e := by
        simp [firstWriteErr, ho, hfc]
      have hr : runWrite lb o fs data
          = { fs := { fs with temp := some (runWriteChunks o 0 [] (writtenChunks lb data)).1 },
              trace := .openStep :: (runWriteChunks o 0 [] (writtenChunks lb data)).2.1,
              callbacks := [some e] } := by
        simp [runWrite, ho, hw]
      refine ⟨by rw [hr, hf], by intro _ _; rw [hr], ?_, by simp [hf], ?_, by simp [hf]⟩
      · refine ⟨rst ++ ((if o.hasFlush then [.flushStep] else []) ++ [.closeStep, .moveStep]), ?_⟩
        rw [hr]
        simp only [successTrace, List.range_eq_range', hpre, List.cons_append,
          List.append_assoc]
      · intro e' he'
        rw [hf] at he'
        cases he'
        obtain ⟨j, pre, hsplit, hje⟩ := h4 e hfc
        refine ⟨.writeStep j, ?_, by simp [stepErr, hje]⟩
        rw [hr]
        simp only [hsplit]
        rw [show WStep.openStep :: (pre ++ [WStep.writeStep j])
            = (WStep.openStep :: pre) ++ [WStep.writeStep j] from rfl]
        exact List.getLast?_concat _
    | none =>
      have hfc : firstChunkErr o 0 (writtenChunks lb data).length = none := by
        rw [← h1, hw]
      obtain ⟨htr, hcont⟩ := h3 hfc
      have hcontent : (runWriteChunks o 0 [] (writtenChunks lb data)).1
          = writtenContent lb data := by
        rw [hcont]
        simp [writtenContent]
      cases hflush : (if o.hasFlush then o.flushErr else none) with
      | some e =>
        have hhf : o.hasFlush = true := by
          cases hb : o.hasFlush
          · rw [hb] at hflush; simp at hflush
          · rfl
        have hf : firstWriteErr o (writtenChunks lb data).length = some e := by
          simp [firstWriteErr, ho, hfc, hflush]
        have hr : runWrite lb o fs data
            = { fs := { fs with temp := some (runWriteChunks o 0 [] (writtenChunks lb data)).1 },
                trace := .openStep :: ((runWriteChunks o 0 [] (writtenChunks lb data)).2.1
                  ++ (if o.hasFlush then [.flushStep] else [])),
                callbacks := [some e] } := by
          simp [runWrite, ho, hw, hflush]
        refine ⟨by rw [hr, hf], by intro _ _; rw [hr], ?_, by simp [hf], ?_, by simp [hf]⟩
        · refine ⟨[.closeStep, .moveStep], ?_⟩
          rw [hr]
          simp only [successTrace, List.range_eq_range', htr, List.cons_append,
            List.append_assoc]
        · intro e' he'
          rw [hf] at he'
          cases he'
          refine ⟨.flushStep, ?_, ?_⟩
          · rw [hr]
            simp only [hhf]
            exact getLast?_cons_concat _ _ _
          · rw [hhf] at hflush
            simpa [stepErr] using hflush
      | none =>
        cases hce : o.closeErr with
        | some e =>
          have hf : firstWriteErr o (writtenChunks lb data).length = some e := by
            simp [firstWriteErr, ho, hfc, hflush, hce]
          have hr : runWrite lb o fs data
              = { fs := { fs with temp := some (runWriteChunks o 0 [] (writtenChunks lb data)).1 },
                  trace := .openStep :: ((runWriteChunks o 0 [] (writtenChunks lb data)).2.1
                    ++ ((if o.hasFlush then [.flushStep] else []) ++ [.closeStep])),
                  callbacks := [some e] } := by
            simp [runWrite, ho, hw, hflush, hce, List.append_assoc]
          refine ⟨by rw [hr, hf], by intro _ _; rw [hr], ?_, by simp [hf], ?_, by simp [hf]⟩
          · refine ⟨[.moveStep], ?_⟩
            rw [hr]
            simp only [successTrace, List.range_eq_range', htr, List.cons_append,
              List.append_assoc]
            rfl
          · intro e' he'
            rw [hf] at he'
            cases he'
            refine ⟨.closeStep, ?_, by simp [stepErr, hce]⟩
            rw [hr]
            simp only [← List.append_assoc]
            exact getLast?_cons_concat _ _ _
        | none =>
          cases hme : o.moveErr with
          | some e =>
            have hf : firstWriteErr o (writtenChunks lb data).length = some e := by
              simp [firstWriteErr, ho, hfc, hflush, hce, hme]
            have hr : runWrite lb o fs data
                = { fs := { fs with temp := some (runWriteChunks o 0 [] (writtenChunks lb data)).1 },
                    trace := .openStep :: ((runWriteChunks o 0 [] (writtenChunks lb data)).2.1
                      ++ ((if o.hasFlush then [.flushStep] else []) ++ [.closeStep, .moveStep])),
                    callbacks := [some e] } := by
              simp [runWrite, ho, hw, hflush, hce, hme, List.append_assoc]
            refine ⟨by rw [hr, hf], by intro _ _; rw [hr], ?_, by simp [hf], ?_, by simp [hf]⟩
            · refine ⟨[], ?_⟩
              rw [hr]
              simp only [successTrace, List.range_eq_range', htr, List.cons_append,
                List.append_assoc]
              rfl
            · intro e' he'
              rw [hf] at he'
              cases he'
              refine ⟨.moveStep, ?_, by simp [stepErr, hme]⟩
              rw [hr]
              rw [show WStep.openStep :: ((runWriteChunks o 0 [] (writtenChunks lb data)).2.1
                  ++ ((if o.hasFlush then [.flushStep] else []) ++ [.closeStep, .moveStep]))
                  = (WStep.openStep :: ((runWriteChunks o 0 [] (writtenChunks lb data)).2.1
                      ++ ((if o.hasFlush then [.flushStep] else []) ++ [.closeStep]))) ++ [.moveStep] from by
                simp [List.append_assoc]]
              exact List.getLast?_concat _
          | none =>
            have hf : firstWriteErr o (writtenChunks lb data).length = none := by
              simp [firstWriteErr, ho, hfc, hflush, hce, hme]
            have hr : runWrite lb o fs data
                = { fs := { target := some (runWriteChunks o 0 [] (writtenChunks lb data)).1,
                            temp := none },
                    trace := .openStep :: ((runWriteChunks o 0 [] (writtenChunks lb data)).2.1
                      ++ ((if o.hasFlush then [.flushStep] else []) ++ [.closeStep, .moveStep])),
                    callbacks := [none] } := by
              simp [runWrite, ho, hw, hflush, hce, hme, List.append_assoc]
            refine ⟨by rw [hr, hf], by simp [hf], ?_, ?_, by simp [hf], ?_⟩
            · refine ⟨[], ?_⟩
              rw [hr]
              simp only [successTrace, List.range_eq_range', htr, List.cons_append,
                List.append_assoc]
              rfl
            · intro _
              rw [hr]
              simp only [successTrace, List.range_eq_range', htr, List.cons_append,
                List.append_assoc]
            · intro _
              rw [hr, hcontent]

/-- Witness for C2: with a primitive failure injected at the first chunk
write, the callback receives that error and the target file's prior
content is untouched; with no failure injected, the callback receives
null. -/
theorem write_error_propagation_witness :
    (runWrite (lineBreak false)
        ({ openErr := none, writeErr := fun i => if i = 0 then some 7 else none,
           hasFlush := true, flushErr := none, closeErr := none,
           moveErr := none } : WriteOracle Nat)
        ⟨some ['z'], none⟩ [['a']]).callbacks = [some 7]
      ∧ (runWrite (lineBreak false)
          ({ openErr := none, writeErr := fun i => if i = 0 then some 7 else none,
             hasFlush := true, flushErr := none, closeErr := none,
             moveErr := none } : WriteOracle Nat)
          ⟨some ['z'], none⟩ [['a']]).fs.target = some ['z']
      ∧ (runWrite (lineBreak false) (okOracle Nat) ⟨some ['z'], none⟩ [['a']]).callbacks
          = [none] := by
  have h := write_error_propagation (lineBreak false)
    ({ openErr := none, writeErr := fun i => if i = 0 then some 7 else none,
       hasFlush := true, flushErr := none, closeErr := none,
       moveErr := none } : WriteOracle Nat) ⟨some ['z'], none⟩ [['a']]
  have hok := write_error_propagation (lineBreak false) (okOracle Nat)
    ⟨some ['z'], none⟩ [['a']]
  refine ⟨?_, ?_, ?_⟩
  · rw [h.1]; decide
  · exact h.2.1 7 (by decide)
  · rw [hok.1]; decide

theorem deliverLines_events (proc : Option Str → Except E Unit) :
    ∀ ls, ∀ ev ∈ (deliverLines proc ls).1, ∃ a, ev = REvent.processCall a := by
  intro ls
  induction ls with
  | nil =>
    intro ev hev
    cases hp : proc none with
    | ok u =>
      simp [deliverLines, hp] at hev
      exact ⟨none, hev⟩
    | error e =>
      simp [deliverLines, hp] at hev
      exact ⟨none, hev⟩
  | cons l rest ih =>
    intro ev hev
    cases hp : proc (some l) with
    | ok u =>
      simp only [deliverLines, hp] at hev
      rcases List.mem_cons.mp hev with h | h
      · exact ⟨some l, h⟩
      · exact ih ev h
    | error e =>
      simp [deliverLines, hp] at hev
      exact ⟨some l, hev⟩

theorem deliverLines_ok (proc : Option Str → Except E Unit)
    (hok : ∀ a, proc a = .ok ()) :
    ∀ ls, deliverLines proc ls
      = (ls.map (fun l => REvent.processCall (some l)) ++ [.processCall none], none) := by
  intro ls
  induction ls with
  | nil => simp [deliverLines, hok none]
  | cons l rest ih => simp [deliverLines, hok (some l), ih]

theorem deliverLines_split (proc : Option Str → Except E Unit)
    (pre : List Str) (bad : Str) (post : List Str) (ex : E)
    (hpre : ∀ l ∈ pre, proc (some l) = .ok ())
    (hbad : proc (some bad) = .error ex) :
    deliverLines proc (pre ++ bad :: post)
      = (pre.map (fun l => REvent.processCall (some l)) ++ [.processCall (some bad)],
         some ex) := by
  induction pre with
  | nil => simp [deliverLines, hbad]
  | cons l rest ih =>
    have hl : proc (some l) = .ok () := hpre l (List.mem_cons_self _ _)
    have ih' := ih fun x hx => hpre x (List.mem_cons_of_mem _ hx)
    simp [deliverLines, hl, ih']

theorem processedArgs_append (a b : List (REvent E)) :
    processedArgs (a ++ b) = processedArgs a ++ processedArgs b := by
  simp [processedArgs]

theorem processedArgs_cons_process (a : Option Str) (evs : List (REvent E)) :
    processedArgs (REvent.processCall a :: evs) = a :: processedArgs evs := rfl

theorem processedArgs_cons_other (ev : REvent E) (evs : List (REvent E))
    (h : isProcessCall ev = false) :
    processedArgs (ev :: evs) = processedArgs evs := by
  cases ev with
  | processCall a => simp [isProcessCall] at h
  | asyncStart id => rfl
  | asyncEnd id => rfl
  | asyncDone id => rfl
  | callbackCall e => rfl

theorem processedArgs_map_processCall (ls : List Str) :
    processedArgs (ls.map (fun l => REvent.processCall (some l)) : List (REvent E))
      = ls.map some := by
  induction ls with
  | nil => rfl
  | cons l rest ih =>
    simp only [List.map_cons, processedArgs_cons_process, ih]

theorem countP_deliverLines_eq_zero (proc : Option Str → Except E Unit)
    (ls : List Str) (p : REvent E → Bool)
    (hp : ∀ a, p (.processCall a) = false) :
    (deliverLines proc ls).1.countP p = 0 := by
  rw [List.countP_eq_zero]
  intro ev hev
  obtain ⟨a, rfl⟩ := deliverLines_events proc ls ev hev
  simp [hp]


theorem processedArgs_nil : processedArgs ([] : List (REvent E)) = [] := rfl

/-- C5: on a successful read, readFromFile delivers every scanned line
to consumer.process in source order and then exactly one null
end-of-stream sentinel after the last line, and the completion callback
is the final event, invoked with null. The witness instantiates the
content x LF LF y LF, on which the consumer receives exactly x, y,
null. -/
theorem read_delivery_order (timeLineID : Option Str) (text : Str)
    (proc : Option Str → Except E Unit) (hok : ∀ a, proc a = .ok ()) :
    processedArgs (readFromFile timeLineID (.ok text) proc)
        = (lines text).map some ++ [none]
      ∧ (readFromFile timeLineID (.ok text) proc).getLast?
          = some (.callbackCall none) := by
  have hd := deliverLines_ok proc hok (lines text)
  cases timeLineID with
  | none =>
    constructor
    · simp [readFromFile, hd, processedArgs_append, processedArgs_map_processCall,
        processedArgs_cons_process, processedArgs_cons_other, processedArgs_nil,
        isProcessCall]
    · have hr : readFromFile (E := E) none (.ok text) proc
          = ((lines text).map (fun l => REvent.processCall (some l))
              ++ [.processCall none]) ++ [.callbackCall none] := by
        simp [readFromFile, hd]
      rw [hr]
      exact List.getLast?_concat _
  | some id =>
    constructor
    · simp [readFromFile, hd, processedArgs_append, processedArgs_map_processCall,
        processedArgs_cons_process, processedArgs_cons_other, processedArgs_nil,
        isProcessCall]
    · have hr : readFromFile (E := E) (some id) (.ok text) proc
          = (.asyncStart id :: .asyncEnd id ::
              ((lines text).map (fun l => REvent.processCall (some l))
                ++ [.processCall none, .asyncDone id])) ++ [.callbackCall none] := by
        simp [readFromFile, hd]
      rw [hr]
      exact List.getLast?_concat _

/-- Witness for C5: with the read delivering x LF LF y LF and a
consumer that never throws, the consumer receives exactly the sequence
x, y, null, and the completion callback fires last with null. -/
theorem read_delivery_order_witness :
    processedArgs (readFromFile (E := Unit) none
          (.ok ['x', '\n', '\n', 'y', '\n']) (fun _ => .ok ()))
        = [some ['x'], some ['y'], none]
      ∧ (readFromFile (E := Unit) none (.ok ['x', '\n', '\n', 'y', '\n'])
          (fun _ => .ok ())).getLast? = some (.callbackCall none) := by
  have h := read_delivery_order (E := Unit) none ['x', '\n', '\n', 'y', '\n']
    (fun _ => .ok ()) (fun _ => rfl)
  refine ⟨?_, h.2⟩
  rw [h.1]
  decide

/-- C9: if the read fails, no consumer call occurs at all and the
captured failure reaches the completion callback, which is the final
event and fires exactly once, while on a successful read with a
consumer that never throws the callback carries null; with a span id,
asyncStart is the first event (immediately before the read), asyncEnd
occurs right after it exactly on the success path and never on the
failure path, and asyncDone fires exactly once, immediately before the
completion callback, on both paths. -/
theorem read_error_discipline (timeLineID : Option Str) (rr : Except E Str)
    (proc : Option Str → Except E Unit) :
    (readFromFile timeLineID rr proc).countP (fun ev => isCallbackCall ev) = 1
      ∧ (∀ e, rr = .error e →
          (readFromFile timeLineID rr proc).countP (fun ev => isProcessCall ev) = 0
            ∧ (readFromFile timeLineID rr proc).getLast?
                = some (.callbackCall (some e)))
      ∧ (∀ id, timeLineID = some id →
          (readFromFile timeLineID rr proc).head? = some (.asyncStart id)
            ∧ (readFromFile timeLineID rr proc).countP
                (fun ev => isAsyncDoneFor id ev) = 1
            ∧ ∃ pre r, readFromFile timeLineID rr proc
                = pre ++ [.asyncDone id, .callbackCall r])
      ∧ (∀ id text, timeLineID = some id → rr = .ok text →
          (readFromFile timeLineID rr proc).take 2 = [.asyncStart id, .asyncEnd id])
      ∧ (∀ e id, rr = .error e →
          REvent.asyncEnd id ∉ readFromFile timeLineID rr proc)
      ∧ (∀ text, rr = .ok text → (∀ a, proc a = .ok ()) →
          (readFromFile timeLineID rr proc).getLast?
            = some (.callbackCall none)) := by
  cases timeLineID with
  | none =>
    cases rr with
    | error e =>
      have hr : readFromFile (E := E) none (.error e) proc = [.callbackCall (some e)] := rfl
      refine ⟨by rw [hr]; simp [isCallbackCall], ?_, ?_, ?_, ?_, ?_⟩
      · intro e' he'
        cases he'
        exact ⟨by rw [hr]; simp [isProcessCall], by rw [hr]; simp⟩
      · intro id hid
        cases hid
      · intro id text hid
        cases hid
      · intro e' id he'
        cases he'
        rw [hr]
        simp
      · intro t ht _
        cases ht
    | ok text =>
      have hcb0 : (deliverLines proc (lines text)).1.countP
          (fun ev => isCallbackCall ev) = 0 :=
        countP_deliverLines_eq_zero proc (lines text)
          (fun ev => isCallbackCall ev) (fun a => rfl)
      have hr : readFromFile (E := E) none (.ok text) proc
          = (deliverLines proc (lines text)).1
              ++ [.callbackCall (deliverLines proc (lines text)).2] := by
        simp [readFromFile]
      refine ⟨?_, ?_, ?_, ?_, ?_, ?_⟩
      · rw [hr]
        simp [List.countP_append, List.countP_cons, isCallbackCall, hcb0]
        intro a ha
        obtain ⟨x, rfl⟩ := deliverLines_events proc (lines text) a ha
        rfl
      · intro e he
        cases he
      · intro id hid
        cases hid
      · intro id t hid
        cases hid
      · intro e id he
        cases he
      · intro t ht hok
        cases ht
        have hd := deliverLines_ok proc hok (lines text)
        have hr2 : readFromFile (E := E) none (.ok text) proc
            = ((lines text).map (fun l => REvent.processCall (some l))
                ++ [.processCall none]) ++ [.callbackCall none] := by
          simp [readFromFile, hd]
        rw [hr2]
        exact List.getLast?_concat _
  | some id0 =>
    cases rr with
    | error e =>
      have hr : readFromFile (E := E) (some id0) (.error e) proc
          = [.asyncStart id0, .asyncDone id0, .callbackCall (some e)] := rfl
      refine ⟨by rw [hr]; simp [isCallbackCall], ?_, ?_, ?_, ?_, ?_⟩
      · intro e' he'
        cases he'
        exact ⟨by rw [hr]; simp [isProcessCall], by rw [hr]; simp⟩
      · intro id hid
        cases hid
        refine ⟨by rw [hr]; simp, ?_, ?_⟩
        · rw [hr]
          simp [List.countP_cons, isAsyncDoneFor]
        · exact ⟨[.asyncStart id0], some e, by rw [hr]; rfl⟩
      · intro id text hid he
        cases he
      · intro e' id he'
        cases he'
        rw [hr]
        simp
      · intro t ht _
        cases ht
    | ok text =>
      have hcb0 : (deliverLines proc (lines text)).1.countP
          (fun ev => isCallbackCall ev) = 0 :=
        countP_deliverLines_eq_zero proc (lines text)
          (fun ev => isCallbackCall ev) (fun a => rfl)
      have had0 : (deliverLines proc (lines text)).1.countP
          (fun ev => isAsyncDoneFor id0 ev) = 0 :=
        countP_deliverLines_eq_zero proc (lines text)
          (fun ev => isAsyncDoneFor id0 ev) (fun a => rfl)
      have hr : readFromFile (E := E) (some id0) (.ok text) proc
          = .asyncStart id0 :: .asyncEnd id0 :: ((deliverLines proc (lines text)).1
              ++ [.asyncDone id0,
                  .callbackCall (deliverLines proc (lines text)).2]) := by
        simp [readFromFile]
      refine ⟨?_, ?_, ?_, ?_, ?_, ?_⟩
      · rw [hr]
        simp [List.countP_append, List.countP_cons, isCallbackCall, hcb0]
        intro a ha
        obtain ⟨x, rfl⟩ := deliverLines_events proc (lines text) a ha
        rfl
      · intro e he
        cases he
      · intro id hid
        cases hid
        refine ⟨by rw [hr]; simp, ?_, ?_⟩
        · rw [hr]
          simp [List.countP_append, List.countP_cons, isAsyncDoneFor, had0]
          intro a ha
          obtain ⟨x, rfl⟩ := deliverLines_events proc (lines text) a ha
          rfl
        · refine ⟨.asyncStart id0 :: .asyncEnd id0 :: (deliverLines proc (lines text)).1,
            (deliverLines proc (lines text)).2, ?_⟩
          rw [hr]
          simp
      · intro id t hid ht
        cases hid
        rw [hr]
        rfl
      · intro e id he
        cases he
      · intro t ht hok
        cases ht
        have hd := deliverLines_ok proc hok (lines text)
        have hr2 : readFromFile (E := E) (some id0) (.ok text) proc
            = (.asyncStart id0 :: .asyncEnd id0 ::
                ((lines text).map (fun l => REvent.processCall (some l))
                  ++ [.processCall none, .asyncDone id0])) ++ [.callbackCall none] := by
          simp [readFromFile, hd]
        rw [hr2]
        exact List.getLast?_concat _

/-- Witness for C9: a failing read with a span id produces asyncStart as
the first event, exactly one callback invocation, and no consumer call;
a successful read with a non-throwing consumer ends with a null
callback. -/
theorem read_error_discipline_witness :
    (readFromFile (some ['t']) (.error 5)
        (fun _ => (.ok () : Except Nat Unit))).countP (fun ev => isCallbackCall ev) = 1
      ∧ (readFromFile (some ['t']) (.error 5)
          (fun _ => (.ok () : Except Nat Unit))).countP (fun ev => isProcessCall ev) = 0
      ∧ (readFromFile (some ['t']) (.error 5)
          (fun _ => (.ok () : Except Nat Unit))).head? = some (.asyncStart ['t'])
      ∧ (readFromFile (some ['t']) (.ok ['x'])
          (fun _ => (.ok () : Except Nat Unit))).getLast?
          = some (.callbackCall none) := by
  have h := read_error_discipline (some ['t']) (.error 5)
    (fun _ => (.ok () : Except Nat Unit))
  have hok := read_error_discipline (some ['t']) (.ok ['x'])
    (fun _ => (.ok () : Except Nat Unit))
  exact ⟨h.1, (h.2.1 5 rfl).1, (h.2.2.1 ['t'] rfl).1,
    hok.2.2.2.2.2 ['x'] rfl (fun _ => rfl)⟩

/-- C10: if consumer.process throws on some line, delivery stops there
(no later line and no null sentinel is delivered), the exception is
caught, the asyncDone marker still fires immediately before the
completion callback when a span id is present, and the callback fires
exactly once, as the final event, with that exception. -/
theorem read_consumer_throw (timeLineID : Option Str) (text : Str)
    (proc : Option Str → Except E Unit) (pre : List Str) (bad : Str)
    (post : List Str) (ex : E)
    (hsplit : lines text = pre ++ bad :: post)
    (hpre : ∀ l ∈ pre, proc (some l) = .ok ())
    (hbad : proc (some bad) = .error ex) :
    processedArgs (readFromFile timeLineID (.ok text) proc)
        = pre.map some ++ [some bad]
      ∧ REvent.processCall none ∉ readFromFile timeLineID (.ok text) proc
      ∧ (readFromFile timeLineID (.ok text) proc).getLast?
          = some (.callbackCall (some ex))
      ∧ (readFromFile timeLineID (.ok text) proc).countP
          (fun ev => isCallbackCall ev) = 1
      ∧ (∀ id, timeLineID = some id →
          ∃ p, readFromFile timeLineID (.ok text) proc
            = p ++ [.asyncDone id, .callbackCall (some ex)]) := by
  have hd : deliverLines proc (lines text)
      = (pre.map (fun l => REvent.processCall (some l)) ++ [.processCall (some bad)],
         some ex) := by
    rw [hsplit]
    exact deliverLines_split proc pre bad post ex hpre hbad
  have hcb0 : (deliverLines proc (lines text)).1.countP
      (fun ev => isCallbackCall ev) = 0 :=
    countP_deliverLines_eq_zero proc (lines text)
      (fun ev => isCallbackCall ev) (fun a => rfl)
  cases timeLineID with
  | none =>
    have hr : readFromFile (E := E) none (.ok text) proc
        = (deliverLines proc (lines text)).1
            ++ [.callbackCall (deliverLines proc (lines text)).2] := by
      simp [readFromFile]
    refine ⟨?_, ?_, ?_, ?_, ?_⟩
    · simp [readFromFile, hd, processedArgs_append, processedArgs_map_processCall,
        processedArgs_cons_process, processedArgs_cons_other, processedArgs_nil,
        isProcessCall]
    · simp [readFromFile, hd]
    · have hrLast : readFromFile (E := E) none (.ok text) proc
          = (pre.map (fun l => REvent.processCall (some l))
              ++ [.processCall (some bad)]) ++ [.callbackCall (some ex)] := by
        simp [readFromFile, hd]
      rw [hrLast]
      exact List.getLast?_concat _
    · rw [hr]
      simp [List.countP_append, List.countP_cons, isCallbackCall, hcb0]
      intro a ha
      obtain ⟨x, rfl⟩ := deliverLines_events proc (lines text) a ha
      rfl
    · intro id hid
      cases hid
  | some id0 =>
    have hr : readFromFile (E := E) (some id0) (.ok text) proc
        = .asyncStart id0 :: .asyncEnd id0 :: ((deliverLines proc (lines text)).1
            ++ [.asyncDone id0,
                .callbackCall (deliverLines proc (lines text)).2]) := by
      simp [readFromFile]
    refine ⟨?_, ?_, ?_, ?_, ?_⟩
    · simp [readFromFile, hd, processedArgs_append, processedArgs_map_processCall,
        processedArgs_cons_process, processedArgs_cons_other, processedArgs_nil,
        isProcessCall]
    · simp [readFromFile, hd]
    · have hrLast : readFromFile (E := E) (some id0) (.ok text) proc
          = (.asyncStart id0 :: .asyncEnd id0 ::
              (pre.map (fun l => REvent.processCall (some l))
                ++ [.processCall (some bad), .asyncDone id0]))
              ++ [.callbackCall (some ex)] := by
        simp [readFromFile, hd]
      rw [hrLast]
      exact List.getLast?_concat _
    · rw [hr]
      simp [List.countP_append, List.countP_cons, isCallbackCall, hcb0]
      intro a ha
      obtain ⟨x, rfl⟩ := deliverLines_events proc (lines text) a ha
      rfl
    · intro id hid
      cases hid
      refine ⟨.asyncStart id0 :: .asyncEnd id0
          :: (pre.map (fun l => REvent.processCall (some l))
              ++ [.processCall (some bad)]), ?_⟩
      simp [readFromFile, hd]

/-- Witness for C10: on content a LF b LF c with a consumer that throws
on b, the delivered arguments are exactly a then b, no sentinel, and
the completion callback receives the thrown value as the final event. -/
theorem read_consumer_throw_witness :
    processedArgs (readFromFile (some ['t']) (.ok ['a', '\n', 'b', '\n', 'c'])
          (fun a => if a = some ['b'] then (.error 3 : Except Nat Unit) else .ok ()))
        = [some ['a'], some ['b']]
      ∧ (readFromFile (some ['t']) (.ok ['a', '\n', 'b', '\n', 'c'])
          (fun a => if a = some ['b'] then (.error 3 : Except Nat Unit) else .ok ())).getLast?
          = some (.callbackCall (some 3)) := by
  have h := read_consumer_throw (some ['t']) ['a', '\n', 'b', '\n', 'c']
    (fun a => if a = some ['b'] then (.error 3 : Except Nat Unit) else .ok ())
    [['a']] ['b'] [['c']] 3 (by decide)
    (by intro l hl
        simp only [List.mem_singleton] at hl
        subst hl
        rfl)
    rfl
  refine ⟨?_, h.2.2.1⟩
  rw [h.1]
  decide

/-- C8: a not-found failure of the stat primitive (becauseNoSuchFile) is
translated into a success callback carrying the Stat with exists false
and the other fields false and zero -- statFile is a function of the
primitive outcome, so repeating the call on the same nonexistent path
yields the same error-free result; any other primitive failure is
passed to the callback as an error; the callback fires exactly once;
and every Stat the callback can receive with exists false has the other
three fields false and zero. -/
theorem statFile_spec {E : Type} (prim : StatPrim E) :
    (∀ e : E, statFile (.err e true)
        = [(none, some { exists_ := false, isDirectory := false, isFile := false,
                         lastModified := 0 })])
      ∧ (∀ e : E, statFile (.err e false) = [(some e, (none : Option Stat))])
      ∧ (statFile prim).length = 1
      ∧ (∀ err s, (err, some s) ∈ statFile prim → s.exists_ = false →
          s.isDirectory = false ∧ s.isFile = false ∧ s.lastModified = 0) := by
  refine ⟨fun e => rfl, fun e => rfl, ?_, ?_⟩
  · cases prim with
    | ok isDir t => rfl
    | err e noFile => cases noFile <;> rfl
  · intro err s hmem hex
    cases prim with
    | ok isDir t =>
      simp [statFile] at hmem
      rw [hmem.2] at hex
      simp at hex
    | err e noFile =>
      cases noFile with
      | true =>
        simp [statFile] at hmem
        rw [hmem.2]
        exact ⟨rfl, rfl, rfl⟩
      | false =>
        simp [statFile] at hmem

/-- Witness for C8: at a concrete not-found failure the callback gets a
null error and the all-false/zero Stat; at a concrete other failure it
gets the error itself. -/
theorem statFile_spec_witness :
    statFile (.err (0 : Nat) true)
        = [(none, some { exists_ := false, isDirectory := false, isFile := false,
                         lastModified := 0 })]
      ∧ statFile (.err (0 : Nat) false) = [(some 0, (none : Option Stat))] :=
  ⟨(statFile_spec (.err (0 : Nat) true)).1 0,
   (statFile_spec (.err (0 : Nat) false)).2.1 0⟩

theorem lineBreak_ne_nil (w : Bool) : lineBreak w ≠ [] := by
  cases w <;> decide

theorem lineBreak_all_break (w : Bool) : ∀ c ∈ lineBreak w, isBreak c = true := by
  cases w <;> decide

theorem linesAux_nobreak_shift (t : List Char) (h : ∀ c ∈ t, isBreak c = false) :
    ∀ rest acc, linesAux (t ++ rest) acc = linesAux rest (t.reverse ++ acc) := by
  induction t with
  | nil =>
    intro rest acc
    simp
  | cons c t' ih =>
    intro rest acc
    have hc : isBreak c = false := h c (List.mem_cons_self _ _)
    have h' : ∀ d ∈ t', isBreak d = false := fun d hd => h d (List.mem_cons_of_mem _ hd)
    simp only [List.cons_append, linesAux, hc, Bool.false_eq_true, if_false,
      List.append_eq]
    rw [ih h' rest (c :: acc)]
    simp [List.append_assoc]

theorem linesAux_break_skip (b : List Char) (h : ∀ c ∈ b, isBreak c = true) :
    ∀ rest, linesAux (b ++ rest) [] = linesAux rest [] := by
  induction b with
  | nil =>
    intro rest
    rfl
  | cons c b' ih =>
    intro rest
    have hc : isBreak c = true := h c (List.mem_cons_self _ _)
    simp only [List.cons_append, linesAux, hc, if_true, List.isEmpty_nil]
    exact ih (fun d hd => h d (List.mem_cons_of_mem _ hd)) rest

theorem linesAux_token (t lb rest : List Char)
    (ht : t ≠ []) (hnb : ∀ c ∈ t, isBreak c = false)
    (hlb : lb ≠ []) (hbr : ∀ c ∈ lb, isBreak c = true) :
    linesAux (t ++ (lb ++ rest)) [] = t :: linesAux rest [] := by
  rw [linesAux_nobreak_shift t hnb (lb ++ rest) []]
  rcases lb with _ | ⟨c, lb'⟩
  · exact absurd rfl hlb
  · have hc : isBreak c = true := hbr c (List.mem_cons_self _ _)
    have hne : (t.reverse ++ ([] : List Char)).isEmpty = false := by
      simp [List.isEmpty_eq_false, ht]
    simp only [List.cons_append, linesAux, hc, if_true, hne, Bool.false_eq_true, if_false,
      List.append_eq]
    rw [linesAux_break_skip lb' (fun d hd => hbr d (List.mem_cons_of_mem _ hd)) rest]
    simp

theorem intercalate_nil_eq (lb : Str) : List.intercalate lb ([] : List Str) = [] := rfl

theorem intercalate_single_eq (lb t : Str) : List.intercalate lb [t] = t := by
  simp [List.intercalate]

theorem intercalate_cons_cons_eq (lb t u : Str) (g : List Str) :
    List.intercalate lb (t :: u :: g) = t ++ (lb ++ List.intercalate lb (u :: g)) := by
  simp [List.intercalate, List.intersperse]

theorem lines_chunk (lb : Str) (hlb : lb ≠ []) (hbr : ∀ c ∈ lb, isBreak c = true) :
    ∀ (g : List Str), (∀ l ∈ g, l ≠ [] ∧ ∀ c ∈ l, isBreak c = false) →
      ∀ rest, linesAux (writeChunkStr g lb ++ rest) [] = g ++ linesAux rest [] := by
  intro g
  induction g with
  | nil =>
    intro _ rest
    have hch : writeChunkStr [] lb = lb := by
      simp [writeChunkStr, intercalate_nil_eq]
    rw [hch, linesAux_break_skip lb hbr rest]
    simp
  | cons t g' ih =>
    intro hg rest
    have hvt := hg t (List.mem_cons_self _ _)
    rcases g' with _ | ⟨u, g''⟩
    · have hch : writeChunkStr [t] lb = t ++ lb := by
        simp [writeChunkStr, intercalate_single_eq]
      rw [hch, List.append_assoc, linesAux_token t lb rest hvt.1 hvt.2 hlb hbr]
      try rfl
    · have hch : writeChunkStr (t :: u :: g'') lb
          = t ++ (lb ++ writeChunkStr (u :: g'') lb) := by
        simp only [writeChunkStr, intercalate_cons_cons_eq, List.append_assoc]
      rw [hch, List.append_assoc, List.append_assoc]
      rw [linesAux_token t lb (writeChunkStr (u :: g'') lb ++ rest) hvt.1 hvt.2 hlb hbr]
      rw [ih (fun l hl => hg l (List.mem_cons_of_mem _ hl)) rest]
      try rfl

theorem lines_chunks (lb : Str) (hlb : lb ≠ []) (hbr : ∀ c ∈ lb, isBreak c = true) :
    ∀ (groups : List (List Str)),
      (∀ g ∈ groups, ∀ l ∈ g, l ≠ [] ∧ ∀ c ∈ l, isBreak c = false) →
      ∀ rest,
        linesAux ((groups.map (fun g => writeChunkStr g lb)).flatten ++ rest) []
          = groups.flatten ++ linesAux rest [] := by
  intro groups
  induction groups with
  | nil =>
    intro _ rest
    simp
  | cons g groups' ih =>
    intro hv rest
    simp only [List.map_cons, List.flatten_cons, List.append_assoc]
    rw [lines_chunk lb hlb hbr g (hv g (List.mem_cons_self _ _))
      ((groups'.map (fun g => writeChunkStr g lb)).flatten ++ rest)]
    rw [ih (fun g' hg' => hv g' (List.mem_cons_of_mem _ hg')) rest]
    try simp

theorem lines_writtenContent (w : Bool) (data : List Str)
    (hvalid : ∀ l ∈ data, l ≠ [] ∧ ∀ c ∈ l, isBreak c = false) :
    lines (writtenContent (lineBreak w) data) = data := by
  obtain ⟨groups, hchunks, hflat⟩ :=
    writtenChunks_groups (lineBreak w) data (fun l hl => (hvalid l hl).1)
  have hv : ∀ g ∈ groups, ∀ l ∈ g, l ≠ [] ∧ ∀ c ∈ l, isBreak c = false := by
    intro g hg l hl
    refine hvalid l ?_
    rw [← hflat]
    exact List.mem_flatten.mpr ⟨g, hg, hl⟩
  have hcontent : writtenContent (lineBreak w) data
      = (groups.map (fun g => writeChunkStr g (lineBreak w))).flatten := by
    rw [writtenContent, hchunks]
  rw [lines, hcontent, ← List.append_nil ((groups.map
    (fun g => writeChunkStr g (lineBreak w))).flatten)]
  rw [lines_chunks (lineBreak w) (lineBreak_ne_nil w) (lineBreak_all_break w) groups hv []]
  simpa [linesAux] using hflat

/-- C1: for every sequence of lines (non-empty strings free of carriage
return and line feed, as the spec defines a line), writing the sequence
with writeToFile and reading the resulting content back with
readFromFile delivers to the consumer exactly the same sequence of
lines in the same order, followed by the null end-of-stream sentinel;
the statement is universal in the data, so it covers the empty
sequence, a single line, and above-threshold inputs taking the
no-flush, single-flush and multi-flush paths. -/
theorem write_read_round_trip (w : Bool) (timeLineID : Option Str) (data : List Str)
    (proc : Option Str → Except E Unit)
    (hvalid : ∀ l ∈ data, l ≠ [] ∧ ∀ c ∈ l, isBreak c = false)
    (hok : ∀ a, proc a = .ok ()) :
    lines (writtenContent (lineBreak w) data) = data
      ∧ processedArgs (readFromFile timeLineID
            (.ok (writtenContent (lineBreak w) data)) proc)
          = data.map some ++ [none] := by
  have hl := lines_writtenContent w data hvalid
  refine ⟨hl, ?_⟩
  have hd := deliverLines_ok proc hok (lines (writtenContent (lineBreak w) data))
  rw [hl] at hd
  cases timeLineID with
  | none =>
    simp [readFromFile, hd, hl, processedArgs_append, processedArgs_map_processCall,
      processedArgs_cons_process, processedArgs_cons_other, processedArgs_nil,
      isProcessCall]
  | some id =>
    simp [readFromFile, hd, hl, processedArgs_append, processedArgs_map_processCall,
      processedArgs_cons_process, processedArgs_cons_other, processedArgs_nil,
      isProcessCall]

/-- Witness for C1: writing the two lines x and y and reading the
result back delivers exactly x, y and the null sentinel. -/
theorem write_read_round_trip_witness :
    lines (writtenContent (lineBreak false) [['x'], ['y']]) = [['x'], ['y']]
      ∧ processedArgs (readFromFile (E := Unit) none
            (.ok (writtenContent (lineBreak false) [['x'], ['y']])) (fun _ => .ok ()))
          = [some ['x'], some ['y'], none] := by
  have h := write_read_round_trip (E := Unit) false none [['x'], ['y']]
    (fun _ => .ok ()) (by decide) (fun _ => rfl)
  refine ⟨h.1, ?_⟩
  rw [h.2]
  decide

end AdblockIo
